import Mathlib

/-! Verification of the jepsen-rs workload-orchestration core.

This file gives a shallow embedding, in Lean 4, of the parts of the
jepsen-rs sources that the verified properties are about:

* `src/op.rs` — the `Op` sum type and its JSON (de)serialization;
* `src/history.rs` — history entries, `push_invoke` / `push_result`;
* `src/client.rs` — `JepsenClient::handle_op_inner` / `handle_op` over the
  `ElleRwClusterClient` interface;
* `src/generator/mod.rs`, `src/generator/controller.rs`,
  `src/utils/counter.rs`, `src/utils/iter.rs` — generators, generator
  groups, the round-robin controller and per-child counters;
* `src/nemesis/mod.rs` — the nemesis calculators `partition_halves`,
  `partition_one` and `partition_majorities_ring`.

Rust `u64`/`usize` values are embedded as `Nat` (with explicit `% 2 ^ 64`
where wrap-around matters), `HashSet`/`HashMap`-built link records as
`Finset`, streams as `List`, fallible calls as `Option`/`Except`, and the
panic of an assertion or an out-of-bounds index as `Option.none` or a
dedicated `panic` constructor of a result type.
-/

namespace JepsenRs

/-! Part: Op model (src/op.rs) -/

/-- The operation sum type, from `enum Op` in `src/op.rs`. -/
inductive Op where
  | read (key : Nat) (value : Option Nat)
  | write (key : Nat) (value : Nat)
  | txn (children : List Op)

mutual

/-- Decidable equality of operations (the automatic derivation does not
handle the nested `List Op`). -/
def opDecEq : (a b : Op) → Decidable (a = b)
  | .read k v, .read k' v' =>
    match Nat.decEq k k', (inferInstance : DecidableEq (Option Nat)) v v' with
    | isTrue h1, isTrue h2 => isTrue (by rw [h1, h2])
    | isFalse h1, _ => isFalse (fun h => by cases h; exact h1 rfl)
    | _, isFalse h2 => isFalse (fun h => by cases h; exact h2 rfl)
  | .write k v, .write k' v' =>
    match Nat.decEq k k', Nat.decEq v v' with
    | isTrue h1, isTrue h2 => isTrue (by rw [h1, h2])
    | isFalse h1, _ => isFalse (fun h => by cases h; exact h1 rfl)
    | _, isFalse h2 => isFalse (fun h => by cases h; exact h2 rfl)
  | .txn l, .txn l' =>
    match opDecEqList l l' with
    | isTrue h => isTrue (by rw [h])
    | isFalse h => isFalse (fun hh => by cases hh; exact h rfl)
  | .read _ _, .write _ _ => isFalse (fun h => by cases h)
  | .read _ _, .txn _ => isFalse (fun h => by cases h)
  | .write _ _, .read _ _ => isFalse (fun h => by cases h)
  | .write _ _, .txn _ => isFalse (fun h => by cases h)
  | .txn _, .read _ _ => isFalse (fun h => by cases h)
  | .txn _, .write _ _ => isFalse (fun h => by cases h)

/-- Decidable equality of lists of operations. -/
def opDecEqList : (a b : List Op) → Decidable (a = b)
  | [], [] => isTrue rfl
  | [], _ :: _ => isFalse (fun h => by cases h)
  | _ :: _, [] => isFalse (fun h => by cases h)
  | a :: as, b :: bs =>
    match opDecEq a b, opDecEqList as bs with
    | isTrue h1, isTrue h2 => isTrue (by rw [h1, h2])
    | isFalse h1, _ => isFalse (fun h => by cases h; exact h1 rfl)
    | _, isFalse h2 => isFalse (fun h => by cases h; exact h2 rfl)

end

instance : DecidableEq Op := opDecEq

/-- Tags of operations, from `enum OpFunctionType` in `src/op.rs`. -/
inductive OpFunctionType where
  | read
  | write
  | txn
deriving DecidableEq

/-- The tag of an operation value, from `impl From<&Op> for OpFunctionType`. -/
def op_fn_type : Op → OpFunctionType
  | .read _ _ => .read
  | .write _ _ => .write
  | .txn _ => .txn

/-! Part: History (src/history.rs) -/

/-- History entry kinds, from `enum HistoryType` in `src/history.rs`. -/
inductive HistoryType where
  | invoke
  | ok
  | fail
  | info
deriving DecidableEq

/-- One history entry, from `struct SerializableHistory` in
`src/history.rs`, generic over the error payload type `ERR`. -/
structure SerializableHistory (ERR : Type) where
  index : Nat
  type_ : HistoryType
  f : OpFunctionType
  value : Op
  time : Nat
  process : Nat
  error : Option ERR
deriving DecidableEq

/-- Source `SerializableHistoryList::push_invoke`.  The timestamp, minted in the
source from `Global.start_time`, is passed in as `t`. -/
def push_invoke {ERR : Type} (hist : List (SerializableHistory ERR))
    (process : Nat) (value : Op) (t : Nat) : List (SerializableHistory ERR) :=
  hist ++ [{ index := hist.length, type_ := .invoke, f := op_fn_type value,
             value := value, time := t, process := process, error := none }]

/-- Source `SerializableHistoryList::push_result`.  The source asserts
`(result_type == Ok) == error.is_none()` and panics otherwise; the panic is
embedded as `none`. -/
def push_result {ERR : Type} (hist : List (SerializableHistory ERR))
    (process : Nat) (result_type : HistoryType) (value : Op)
    (error : Option ERR) (t : Nat) : Option (List (SerializableHistory ERR)) :=
  if decide (result_type = HistoryType.ok) = error.isNone then
    some (hist ++ [{ index := hist.length, type_ := result_type,
                     f := op_fn_type value, value := value, time := t,
                     process := process, error := error }])
  else
    none

/-- A call to one of the two mutating operations of the history list. -/
inductive HistCmd (ERR : Type) where
  | invoke (process : Nat) (op : Op) (t : Nat)
  | result (process : Nat) (kind : HistoryType) (op : Op) (err : Option ERR) (t : Nat)

/-- Apply one history command; `none` embeds the panic of a rejected
`push_result`. -/
def hist_step {ERR : Type} (hist : List (SerializableHistory ERR)) :
    HistCmd ERR → Option (List (SerializableHistory ERR))
  | .invoke p op t => some (push_invoke hist p op t)
  | .result p kind op err t => push_result hist p kind op err t

/-- Run a sequence of history commands from a starting list. -/
def hist_run {ERR : Type} :
    List (HistCmd ERR) → List (SerializableHistory ERR) →
    Option (List (SerializableHistory ERR))
  | [], h => some h
  | c :: cs, h =>
    match hist_step h c with
    | none => none
    | some h' => hist_run cs h'

/-- The invariant of claim C8: each entry's `index` is its position and its
`f` agrees with its value's tag. -/
def hist_wf {ERR : Type} (h : List (SerializableHistory ERR)) : Prop :=
  ∀ k, (hk : k < h.length) → h[k].index = k ∧ h[k].f = op_fn_type h[k].value

/-! Part: Client (src/client.rs)

`JepsenClient` holds a `Box<dyn ElleRwClusterClient>`; the trait exposes
only `get(&self, key) -> Option<u64>` and `put(&mut self, key, value)`
(both infallible).  The trait object is embedded as an arbitrary state type
`σ` together with `get` and `put` functions. -/

mutual

/-- Source `JepsenClient::handle_op_inner`, threading the cluster-client state.
Errors of type `String` are the `Result<Op, String>` of the source; the
only possible source of an error is a child of a `Txn`. -/
def handle_op_inner {σ : Type} (get : σ → Nat → Option Nat)
    (put : σ → Nat → Nat → σ) : Op → σ → Except String (Op × σ)
  | .read key _, cl => .ok (.read key (get cl key), cl)
  | .write key value, cl => .ok (.write key value, put cl key value)
  | .txn ops, cl =>
    match handle_children get put ops cl with
    | .error e => .error e
    | .ok (rs, cl') => .ok (.txn rs, cl')

/-- The `ops.into_iter().map(|op| self.handle_op_inner(op)).collect::<Result<_, _>>()`
of the `Txn` branch: children are executed in declared order and the first
error short-circuits, leaving later children unexecuted. -/
def handle_children {σ : Type} (get : σ → Nat → Option Nat)
    (put : σ → Nat → Nat → σ) : List Op → σ → Except String (List Op × σ)
  | [], cl => .ok ([], cl)
  | op :: rest, cl =>
    match handle_op_inner get put op cl with
    | .error e => .error e
    | .ok (r, cl') =>
      match handle_children get put rest cl' with
      | .error e => .error e
      | .ok (rs, cl'') => .ok (r :: rs, cl'')

end

/-- Sequential execution of a list of child operations in declared order:
`SeqExec get put cl ops rs cl'` holds when executing `ops` front to back
from client state `cl`, each child succeeding, yields results `rs` in the
same order and final state `cl'`. -/
inductive SeqExec {σ : Type} (get : σ → Nat → Option Nat)
    (put : σ → Nat → Nat → σ) : σ → List Op → List Op → σ → Prop where
  | nil (cl : σ) : SeqExec get put cl [] [] cl
  | cons {cl cl₁ cl₂ : σ} {op r : Op} {ops rs : List Op} :
      handle_op_inner get put op cl = .ok (r, cl₁) →
      SeqExec get put cl₁ ops rs cl₂ →
      SeqExec get put cl (op :: ops) (r :: rs) cl₂

/-- Source `JepsenClient::handle_op`: push the invoke entry, run the op, push the
closing entry.  The two timestamps minted in the source are passed in as
`t1`, `t2`.  The resulting history is `none` only if `push_result`'s
assertion would panic. -/
def handle_op {σ : Type} (get : σ → Nat → Option Nat)
    (put : σ → Nat → Nat → σ) (cl : σ)
    (hist : List (SerializableHistory String)) (id : Nat) (op : Op)
    (t1 t2 : Nat) : σ × Option (List (SerializableHistory String)) :=
  let hist1 := push_invoke hist id op t1
  match handle_op_inner get put op cl with
  | .ok (rop, cl') => (cl', push_result hist1 id .ok rop none t2)
  | .error e => (cl, push_result hist1 id .fail op (some e) t2)

/-! Part: Op JSON serialization (src/op.rs) -/

/-- A JSON value, embedding `serde_json::Value` (numbers restricted to the
`u64` range, the only kind `Op` serialization produces). -/
inductive JsonValue where
  | null
  | bool (b : Bool)
  | num (n : Nat)
  | str (s : String)
  | arr (a : List JsonValue)
  | obj (fields : List (String × JsonValue))

/-- Source `Value::as_str`. -/
def JsonValue.as_str : JsonValue → Option String
  | .str s => some s
  | _ => none

/-- Source `Value::as_u64`. -/
def JsonValue.as_u64 : JsonValue → Option Nat
  | .num n => some n
  | _ => none

/-- The outcome of running `parse_op`: a Rust panic (out-of-bounds index),
an `anyhow` error, or a parsed value. -/
inductive ParseResult (α : Type) where
  | panic
  | err (e : String)
  | ok (v : α)
deriving DecidableEq

mutual

/-- Source `parse_op` from `src/op.rs`.  The source indexes `arr[0]`, `arr[1]`
and `arr[2]` without bounds checks; those indexings panic on short arrays
and are embedded as `ParseResult.panic`. -/
def parse_op : JsonValue → ParseResult Op
  | .arr a =>
    match a with
    | [] => .panic
    | a0 :: rest =>
      match a0.as_str with
      | some op_type =>
        match rest with
        | [] => .panic
        | a1 :: rest2 =>
          match a1.as_u64 with
          | none => .err ("Invalid key")
          | some key =>
            match rest2 with
            | [] => .panic
            | a2 :: _ =>
              let value := a2.as_u64
              if op_type = ":r" then .ok (.read key value)
              else if op_type = ":w" then
                match value with
                | some v => .ok (.write key v)
                | none => .err ("Invalid value")
              else .err ("Unknown op type")
      | none =>
        match parse_children (a0 :: rest) with
        | .panic => .panic
        | .err e => .err e
        | .ok ops => .ok (.txn ops)
  | _ => .err ("Invalid JSON format")

/-- The `arr.iter().map(parse_op).collect::<Result<Vec<_>, _>>()` of the
`Txn` branch: children are parsed left to right, stopping at the first
error; a panic in a child propagates. -/
def parse_children : List JsonValue → ParseResult (List Op)
  | [] => .ok []
  | v :: rest =>
    match parse_op v with
    | .panic => .panic
    | .err e => .err e
    | .ok op =>
      match parse_children rest with
      | .panic => .panic
      | .err e => .err e
      | .ok ops => .ok (op :: ops)

end

mutual

/-- Source `op_to_json` from `src/op.rs`. -/
def op_to_json : Op → JsonValue
  | .read key value =>
    .arr [.str ":r", .num key,
          match value with | some v => .num v | none => .null]
  | .write key value => .arr [.str ":w", .num key, .num value]
  | .txn ops => .arr (op_to_json_list ops)

/-- The `ops.iter().map(op_to_json).collect()` of the `Txn` branch. -/
def op_to_json_list : List Op → List JsonValue
  | [] => []
  | op :: rest => op_to_json op :: op_to_json_list rest

end

mutual

/-- The predicate of claim C10: every `Txn` node of the operation has a
non-empty child list. -/
def no_empty_txn : Op → Bool
  | .read _ _ => true
  | .write _ _ => true
  | .txn l => !l.isEmpty && no_empty_txn_list l

/-- Source `no_empty_txn` on every element of a list. -/
def no_empty_txn_list : List Op → Bool
  | [] => true
  | op :: rest => no_empty_txn op && no_empty_txn_list rest

end

/-! Part: Generator utilities -/

/-- Modelled from the spec: the trait `OverflowingAddRange` is used by
`GeneratorGroupStrategy::choose` (src/generator/controller.rs) and by
`partition_majorities_ring` (src/nemesis/mod.rs) but its implementation is
not among the sources.  The spec fixes the value on in-range inputs —
"`overflowing_add_range(x, k, [lo, hi))` always returns a value in
`[lo, hi)` and equals `((x − lo) + k) mod (hi − lo) + lo` when
`x ∈ [lo, hi)`" — and the in-source test `generator_group_choose_test`
fixes `usize::MAX.overflowing_add_range(1, 0..3) = 0`, which forces the
`usize` addition to wrap at `2 ^ 64` before the reduction into the range. -/
def overflowing_add_range (x k lo hi : Nat) : Nat :=
  ((x + k) % 2 ^ 64 - lo) % (hi - lo) + lo

/-- Per-child generation budget, from `struct Counter` in
`src/utils/counter.rs`. -/
structure Counter where
  cur : Nat
  total : Nat
deriving DecidableEq

/-- Source `Counter::new`. -/
def Counter.new (total : Nat) : Counter := ⟨total, total⟩

/-- Source `Counter::over`. -/
def Counter.over (c : Counter) : Bool := c.cur == 0

/-- The decrement of `Counter::count` (the generator group calls it with
`expect`, only when the counter is not over, so the `Err` case never
runs). -/
def Counter.count (c : Counter) : Counter := { c with cur := c.cur - 1 }

/-- Source `Counter::reset`. -/
def Counter.reset (c : Counter) : Counter := { c with cur := c.total }

/-- Source `enum GeneratorGroupStrategy` from `src/generator/controller.rs`.
The `Random` variant draws from a thread-local RNG and is outside the
scope of the verified claims, so it is not modelled. -/
inductive GGStrategy where
  | roundRobin (last : Nat)
  | chain
deriving DecidableEq

/-- Source `GeneratorGroupStrategy::choose` over the range `lo..hi`; returns the
updated strategy (round-robin stores the last choice) and the chosen
index. -/
def GGStrategy.choose : GGStrategy → Nat → Nat → GGStrategy × Nat
  | .roundRobin last, lo, hi =>
    let v := overflowing_add_range last 1 lo hi
    (.roundRobin v, v)
  | .chain, lo, _ => (.chain, lo)

/-- Source `struct GeneratorGroup`: children paired with their counters, the
strategy, and the currently selected index.  A child generator's stream is
embedded as the list of items it has yet to yield. -/
structure GGroup (α : Type) where
  gens : List (List α × Counter)
  strategy : GGStrategy
  selected : Nat
deriving DecidableEq

/-- Source `GeneratorGroup::select_current`. -/
def select_current {α : Type} (g : GGroup α) : GGroup α :=
  let p := g.strategy.choose 0 g.gens.length
  { g with strategy := p.1, selected := p.2 }

/-- Source `GeneratorGroup::remove_current_and_reselect`. -/
def remove_current_and_reselect {α : Type} (g : GGroup α) : GGroup α :=
  let is_last := g.selected = g.gens.length - 1
  let g' := { g with gens := g.gens.eraseIdx g.selected }
  if g'.gens.isEmpty then g'
  else if is_last then select_current g' else g'

/-- The loop body of `impl_generator_group!` (the `next` /
`get_without_delay` of `GeneratorGroup`).  `fuel` bounds the number of
loop iterations; every reachable configuration of the verified claims
terminates well within the supplied fuel.  The source's
`expect("selected index should in the range")` panic is unreachable in
those configurations; `getD` supplies a dummy for the out-of-range case. -/
def groupNext {α : Type} : Nat → GGroup α → Option (α × GGroup α)
  | 0, _ => none
  | fuel + 1, g =>
    if g.gens.isEmpty then none
    else
      let s := g.gens.getD g.selected ([], Counter.new 1)
      if s.2.over then
        groupNext fuel
          (select_current { g with gens := g.gens.set g.selected (s.1, s.2.reset) })
      else
        let c' := s.2.count
        match s.1 with
        | [] =>
          groupNext fuel
            (remove_current_and_reselect { g with gens := g.gens.set g.selected ([], c') })
        | x :: rest => some (x, { g with gens := g.gens.set g.selected (rest, c') })

/-- Source `collect` on a generator group: repeatedly call `groupNext` until
end-of-stream. -/
def groupCollect {α : Type} : Nat → GGroup α → List α
  | 0, _ => []
  | fuel + 1, g =>
    match groupNext (fuel + 1) g with
    | none => []
    | some (x, g') => x :: groupCollect fuel g'

/-! Part: Generator split/chain and the id allocator
(src/generator/mod.rs, src/generator/context.rs, src/utils/iter.rs) -/

/-- Source `enum DelayStrategy` from `src/generator/controller.rs` (durations in
nanoseconds). -/
inductive DelayStrategy where
  | none
  | fixed (d : Nat)
  | random (d : Nat)
deriving DecidableEq

/-- A generator: its id and its stream of `(item, delay)` pairs, from
`struct Generator` in `src/generator/mod.rs`. -/
structure Gen (α : Type) where
  id : Nat
  seq : List (α × DelayStrategy)

/-- The loop of `GeneratorId::get_next_id`: walk the ascending ids,
return the first position whose id differs from it, or the size. -/
def get_next_id_go : Nat → List Nat → Nat
  | idx, [] => idx
  | idx, k :: rest => if idx ≠ k then idx else get_next_id_go (idx + 1) rest

/-- Source `GeneratorId::get_next_id`: the smallest id not in use.  The id set is
the key set of the source's `BTreeMap`, iterated in ascending order. -/
def get_next_id (st : Finset Nat) : Nat :=
  get_next_id_go 0 (st.sort (· ≤ ·))

/-- Source `Generator::split_at` (together with `ExtraStreamExt::split_at`): the
head keeps the original id and takes the first `n` elements; the tail
receives a freshly allocated id and the rest of the stream.  Returns the
two generators and the updated id set. -/
def split_at {α : Type} (g : Gen α) (n : Nat) (st : Finset Nat) :
    Gen α × Gen α × Finset Nat :=
  let newId := get_next_id st
  (⟨g.id, g.seq.take n⟩, ⟨newId, g.seq.drop n⟩, insert newId st)

/-- Source `Generator::chain`: concatenate the streams, keep the first
generator's id; the second generator is consumed and its id dropped,
which releases it from the id set. -/
def chain {α : Type} (a b : Gen α) (st : Finset Nat) : Gen α × Finset Nat :=
  (⟨a.id, a.seq ++ b.seq⟩, st.erase b.id)

/-- Source `DelayAsyncIter::collect`: items only. -/
def gen_collect {α : Type} (g : Gen α) : List α := g.seq.map Prod.fst

/-- Source `DelayAsyncIter::collect_all`: items with their delays. -/
def gen_collect_all {α : Type} (g : Gen α) : List (α × DelayStrategy) := g.seq

/-! Part: Nemesis calculators (src/nemesis/mod.rs) -/

/-- Source `NemesisCalculator::majority`. -/
def majority (N : Nat) : Nat := N / 2 + 1

/-- Modelled from the spec: `select_numbers_from_range` is used by
`partition_majorities_ring` but its implementation is not among the
sources.  The spec describes the result — the reachable set of `i` is made
of "evenly-spaced indices starting just after `i`" — which, together with
the in-source expectations of `test_partition_majorities_ring` (cluster
sizes 4 and 6), fixes the selection to `n` evenly spaced numbers from
`0..total` with spacing `⌈total / n⌉`. -/
def select_numbers_from_range (total n : Nat) : List Nat :=
  (List.range n).map (fun j => j * ((total + n - 1) / n))

/-- The `expected` set of `partition_majorities_ring` at server `i`: the
selected offsets shifted just past `i` (wrapping inside `0..N`), keeping
only servers `≥ i` (a link only needs to be clogged once). -/
def expected_set (N i : Nat) : Finset Nat :=
  (((select_numbers_from_range (N - 1) (majority N - 1)).map
      (fun x => overflowing_add_range x (i + 1) 0 N)).filter
    (fun x => i ≤ x)).toFinset

/-- Source `NemesisCalculator::partition_majorities_ring`, as the set of directed
links it records (the `NetRecord`'s edge set): for each server `i`, every
server `x ≥ i` outside `expected_set N i` gets the link `{i, x}` clogged
in both directions. -/
def partition_majorities_ring (N : Nat) : Finset (Nat × Nat) :=
  (Finset.range N).biUnion (fun i =>
    (((Finset.range N) \ expected_set N i).filter (fun x => i ≤ x)).biUnion
      (fun x => {(i, x), (x, i)}))

/-- The servers a server `i` can still reach via direct un-clogged links
after applying the ring record. -/
def ring_neighbors (N i : Nat) : Finset Nat :=
  (Finset.range N).filter
    (fun j => j ≠ i ∧ (i, j) ∉ partition_majorities_ring N)

/-- Source `NemesisCalculator::partition_halves`, as the set of directed links it
records.  The source asserts `set1.len() < self.size()` and panics
otherwise; the panic is embedded as `none`. -/
def partition_halves (s : Finset Nat) (N : Nat) : Option (Finset (Nat × Nat)) :=
  if s.card < N then
    some (s.biUnion (fun x => ((Finset.range N) \ s).biUnion
      (fun y => {(x, y), (y, x)})))
  else
    none

/-- Source `NemesisCalculator::partition_one`. -/
def partition_one (server : Nat) (N : Nat) : Option (Finset (Nat × Nat)) :=
  partition_halves {server} N


/-! Part: helper lemmas -/

/-- An accepted `push_result` appends exactly one entry built from its
arguments. -/
theorem push_result_some_eq {ERR : Type} {hist h' : List (SerializableHistory ERR)}
    {process : Nat} {kind : HistoryType} {value : Op} {error : Option ERR} {t : Nat}
    (h : push_result hist process kind value error t = some h') :
    h' = hist ++ [{ index := hist.length, type_ := kind, f := op_fn_type value,
                    value := value, time := t, process := process, error := error }] := by
  unfold push_result at h
  split at h
  · exact (Option.some.inj h).symm
  · cases h

/-- Appending an entry whose index is the current length and whose tag
agrees with its value preserves the history invariant. -/
theorem hist_wf_append {ERR : Type} {h : List (SerializableHistory ERR)}
    {e : SerializableHistory ERR} (hw : hist_wf h) (hidx : e.index = h.length)
    (hf : e.f = op_fn_type e.value) : hist_wf (h ++ [e]) := by
  intro k hk
  rw [List.length_append, List.length_singleton] at hk
  rcases Nat.lt_or_ge k h.length with hlt | hge
  · rw [List.getElem_append_left hlt]
    exact hw k hlt
  · have hke : k = h.length := by omega
    subst hke
    simp only [List.getElem_concat_length]
    exact ⟨hidx, hf⟩

/-- Running history commands from a well-formed history yields a
well-formed history. -/
theorem hist_run_wf {ERR : Type} :
    ∀ (cmds : List (HistCmd ERR)) (h0 h : List (SerializableHistory ERR)),
      hist_wf h0 → hist_run cmds h0 = some h → hist_wf h := by
  intro cmds
  induction cmds with
  | nil =>
    intro h0 h hw hr
    simp only [hist_run] at hr
    cases hr
    exact hw
  | cons c cs ih =>
    intro h0 h hw hr
    simp only [hist_run] at hr
    rcases hs : hist_step h0 c with _ | h1
    · rw [hs] at hr; cases hr
    · rw [hs] at hr
      refine ih h1 h ?_ hr
      cases c with
      | invoke p op t =>
        simp only [hist_step] at hs
        cases hs
        exact hist_wf_append hw rfl rfl
      | result p kind op err t =>
        simp only [hist_step] at hs
        have := push_result_some_eq hs
        subst this
        exact hist_wf_append hw rfl rfl

/-! Part: claims C6 and C8, the history invariants -/

/-- Claim C6: `push_result` enforces the kind/error invariant at append
time.  A call with kind `Ok` together with an error, or kind `Fail`/`Info`
without one, panics (is rejected).  An accepted call appends exactly one
entry carrying the given kind, op value, process and error, and every
accepted closing entry (kind `Ok`, `Fail` or `Info`) carries an error iff
its kind is `Fail` or `Info`. -/
theorem c6_push_result_kind_error {ERR : Type} (hist : List (SerializableHistory ERR))
    (process : Nat) (kind : HistoryType) (value : Op) (error : Option ERR) (t : Nat) :
    (∀ h', push_result hist process kind value error t = some h' →
      h' = hist ++ [{ index := hist.length, type_ := kind, f := op_fn_type value,
                      value := value, time := t, process := process, error := error }] ∧
      (kind ≠ HistoryType.invoke → (error ≠ none ↔ (kind = .fail ∨ kind = .info)))) ∧
    (kind = .ok → error ≠ none → push_result hist process kind value error t = none) ∧
    ((kind = .fail ∨ kind = .info) → error = none → push_result hist process kind value error t = none) := by
  refine ⟨fun h' hsome => ⟨push_result_some_eq hsome, ?_⟩, ?_, ?_⟩
  · intro hkind
    unfold push_result at hsome
    split at hsome
    · rename_i hcond
      cases kind <;> cases error <;> simp_all
    · cases hsome
  · rintro rfl herr
    unfold push_result
    cases error with
    | none => exact absurd rfl herr
    | some e => simp
  · rintro (rfl | rfl) rfl <;> (unfold push_result; simp)

/-- Witness for C6 at concrete inputs: an `Ok` result carrying an error is
rejected. -/
theorem c6_push_result_kind_error_witness :
    push_result ([] : List (SerializableHistory String)) 0 .ok (.write 1 2) (some ("e")) 7 = none :=
  (c6_push_result_kind_error [] 0 .ok (.write 1 2) (some ("e")) 7).2.1 rfl (by simp)

/-- Claim C8: starting from the empty history, after any sequence of
`push_invoke` and (accepted) `push_result` calls, every entry's `index`
equals its zero-based position and every entry's `f` field equals the tag
of its `value`. -/
theorem c8_history_index_f {ERR : Type} (cmds : List (HistCmd ERR))
    (h : List (SerializableHistory ERR)) (hr : hist_run cmds [] = some h) :
    hist_wf h :=
  hist_run_wf cmds [] h (fun k hk => absurd hk (by simp)) hr

/-- Witness for C8: a concrete invoke/result run satisfies the invariant. -/
theorem c8_history_index_f_witness :
    hist_wf [({ index := 0, type_ := .invoke, f := .write, value := .write 1 2,
                time := 3, process := 0, error := none } : SerializableHistory String),
             { index := 1, type_ := .ok, f := .write, value := .write 1 2,
               time := 5, process := 0, error := none }] :=
  c8_history_index_f [HistCmd.invoke 0 (.write 1 2) 3,
    HistCmd.result 0 .ok (.write 1 2) none 5] _ rfl


/-! Part: claim C4, partition calculator symmetry -/

/-- Claim C4: for a server set `s` with fewer members than the cluster
size, the `Net` record of `partition_halves` has exactly the directed
edges between `s` and its complement in `0..N`, in both directions; for
`|s| ≥ N` the calculation is rejected (the source's assertion panics);
and `partition_one x` produces the same record as
`partition_halves {x}`. -/
theorem c4_partition_halves_edges (s : Finset Nat) (N x : Nat) :
    (s.card < N → ∀ a b,
      ((a, b) ∈ (partition_halves s N).getD ∅ ↔
        (a ∈ s ∧ b ∉ s ∧ b < N) ∨ (b ∈ s ∧ a ∉ s ∧ a < N))) ∧
    (N ≤ s.card → partition_halves s N = none) ∧
    partition_one x N = partition_halves {x} N := by
  refine ⟨?_, ?_, rfl⟩
  · intro hcard a b
    rw [partition_halves, if_pos hcard, Option.getD_some]
    simp only [Finset.mem_biUnion, Finset.mem_sdiff, Finset.mem_range,
      Finset.mem_insert, Finset.mem_singleton, Prod.mk.injEq]
    constructor
    · rintro ⟨u, hu, v, ⟨hvN, hvs⟩, ⟨rfl, rfl⟩ | ⟨rfl, rfl⟩⟩
      · exact Or.inl ⟨hu, hvs, hvN⟩
      · exact Or.inr ⟨hu, hvs, hvN⟩
    · rintro (⟨ha, hb, hbN⟩ | ⟨hb, ha, haN⟩)
      · exact ⟨a, ha, b, ⟨hbN, hb⟩, Or.inl ⟨rfl, rfl⟩⟩
      · exact ⟨b, hb, a, ⟨haN, ha⟩, Or.inr ⟨rfl, rfl⟩⟩
  · intro hle
    rw [partition_halves, if_neg (Nat.not_lt.mpr hle)]

/-- Witness for C4 at concrete inputs: an edge across the cut is present,
and an oversized set is rejected. -/
theorem c4_partition_halves_edges_witness :
    ((0, 2) ∈ (partition_halves {0, 1} 3).getD ∅ ↔
      (0 ∈ ({0, 1} : Finset Nat) ∧ 2 ∉ ({0, 1} : Finset Nat) ∧ 2 < 3) ∨
      (2 ∈ ({0, 1} : Finset Nat) ∧ 0 ∉ ({0, 1} : Finset Nat) ∧ 0 < 3)) ∧
    partition_halves {0, 1, 2} 3 = none :=
  ⟨(c4_partition_halves_edges {0, 1} 3 0).1 (by decide) 0 2,
   (c4_partition_halves_edges {0, 1, 2} 3 0).2.1 (by decide)⟩

/-! Part: claim C7, overflowing_add_range -/

/-- Claim C7 (amended): `overflowing_add_range x k [lo, hi)` always lands
in `[lo, hi)` for a non-empty range; it equals
`((x - lo) + k) % (hi - lo) + lo` whenever `x ∈ [lo, hi)` and the `usize`
addition `x + k` does not wrap (`x + k < 2 ^ 64`); and round-robin
selection, which calls it with `k = 1`, always chooses an index inside the
live-children range `0..n`, whatever the stored last index. -/
theorem c7_overflowing_add_range_spec (x k lo hi : Nat) (h : lo < hi) :
    (lo ≤ overflowing_add_range x k lo hi ∧ overflowing_add_range x k lo hi < hi) ∧
    (lo ≤ x → x < hi → x + k < 2 ^ 64 →
      overflowing_add_range x k lo hi = (x - lo + k) % (hi - lo) + lo) ∧
    (∀ last n, 0 < n → ((GGStrategy.roundRobin last).choose 0 n).2 < n) := by
  refine ⟨⟨Nat.le_add_left _ _, ?_⟩, ?_, ?_⟩
  · have hm : ((x + k) % 2 ^ 64 - lo) % (hi - lo) < hi - lo :=
      Nat.mod_lt _ (by omega)
    unfold overflowing_add_range
    omega
  · intro hlo hhi hof
    unfold overflowing_add_range
    rw [Nat.mod_eq_of_lt hof, show x + k - lo = x - lo + k by omega]
  · intro last n hn
    simp only [GGStrategy.choose, overflowing_add_range, Nat.sub_zero, Nat.add_zero]
    exact Nat.mod_lt _ hn

/-- Witness for C7 at concrete in-range inputs. -/
theorem c7_overflowing_add_range_spec_witness :
    overflowing_add_range 5 1 2 7 = (5 - 2 + 1) % (7 - 2) + 2 :=
  (c7_overflowing_add_range_spec 5 1 2 7 (by decide)).2.1 (by decide) (by decide) (by decide)

/-- Counterexample to C7 as stated: for `x = 2`, `k = 2 ^ 64 - 1` (a legal
`usize`) and range `[0, 3)`, the `usize` addition wraps, so the result is
`1` while the claimed formula `((x - lo) + k) % (hi - lo) + lo` gives `2`. -/
theorem c7_counterexample :
    overflowing_add_range 2 (2 ^ 64 - 1) 0 3 = 1 ∧
    (2 - 0 + (2 ^ 64 - 1)) % (3 - 0) + 0 = 2 := by
  constructor <;> decide


/-! Part: claim C10, Op JSON round trip and the empty-array panic -/

/-- Structural induction over operations, with the nested child lists
handled through membership. -/
theorem op_induction (P : Op → Prop) (hr : ∀ k v, P (.read k v))
    (hw : ∀ k v, P (.write k v))
    (ht : ∀ l, (∀ o ∈ l, P o) → P (.txn l)) : ∀ op, P op :=
  fun op =>
    @Op.rec P (fun l => ∀ o ∈ l, P o) hr hw ht
      (fun o ho => absurd ho (List.not_mem_nil o))
      (fun hd _tl Phd Ptl o ho => by
        rcases List.mem_cons.mp ho with h | h
        · exact h ▸ Phd
        · exact Ptl o h)
      op

/-- Serializing any operation yields a JSON array. -/
theorem op_to_json_shape (op : Op) : ∃ l, op_to_json op = .arr l := by
  cases op with
  | read k v => exact ⟨_, rfl⟩
  | write k v => exact ⟨_, rfl⟩
  | txn l => exact ⟨_, rfl⟩

/-- Membership version of `no_empty_txn_list`. -/
theorem no_empty_txn_list_mem {l : List Op} (h : no_empty_txn_list l = true) :
    ∀ o ∈ l, no_empty_txn o = true := by
  induction l with
  | nil => intro o ho; cases ho
  | cons hd tl ih =>
    rw [no_empty_txn_list, Bool.and_eq_true] at h
    intro o ho
    rcases List.mem_cons.mp ho with rfl | ho'
    · exact h.1
    · exact ih h.2 o ho'

/-- Parsing the serialized children of a transaction recovers them when
each child round-trips. -/
theorem parse_children_map (l : List Op)
    (ih : ∀ o ∈ l, parse_op (op_to_json o) = .ok o) :
    parse_children (op_to_json_list l) = .ok l := by
  induction l with
  | nil => rfl
  | cons o rest ihl =>
    rw [op_to_json_list, parse_children, ih o (List.mem_cons_self o rest),
      ihl (fun o' ho' => ih o' (List.mem_cons_of_mem o ho'))]

/-- The serialize-then-parse round trip on operations whose transaction
nodes are all non-empty. -/
theorem parse_op_roundtrip :
    ∀ op, no_empty_txn op = true → parse_op (op_to_json op) = .ok op := by
  refine op_induction _ ?_ ?_ ?_
  · intro k v _
    cases v <;> rfl
  · intro k v _
    rfl
  · intro l ih hne
    rw [no_empty_txn, Bool.and_eq_true] at hne
    have hmem : ∀ o ∈ l, parse_op (op_to_json o) = .ok o := fun o ho =>
      ih o ho (no_empty_txn_list_mem hne.2 o ho)
    cases l with
    | nil => simp at hne
    | cons o0 rest =>
      obtain ⟨la, ha⟩ := op_to_json_shape o0
      have hchildren := parse_children_map (o0 :: rest) hmem
      rw [op_to_json_list] at hchildren
      rw [op_to_json, op_to_json_list, parse_op, ha]
      simp only [JsonValue.as_str]
      rw [← ha, hchildren]

/-- Claim C10: `parse_op` indexes the first element of a JSON array
without an emptiness check, so the empty array panics instead of
returning an error; the serialize/deserialize round trip holds for every
operation whose `Txn` nodes are non-empty, while `Txn []` serializes to
`[]` and therefore panics on the way back. -/
theorem c10_parse_op_partiality :
    parse_op (.arr []) = .panic ∧
    (∀ op, no_empty_txn op = true → parse_op (op_to_json op) = .ok op) ∧
    op_to_json (.txn []) = .arr [] ∧
    parse_op (op_to_json (.txn [])) = .panic :=
  ⟨rfl, parse_op_roundtrip, rfl, rfl⟩

/-- Witness for C10: a concrete two-statement transaction round-trips. -/
theorem c10_parse_op_partiality_witness :
    parse_op (op_to_json (.txn [.write 6 1, .read 8 none]))
      = .ok (.txn [.write 6 1, .read 8 none]) :=
  c10_parse_op_partiality.2.1 (.txn [.write 6 1, .read 8 none]) (by decide)


/-! Part: claim C3, split/chain algebra and the id allocator -/

/-- The allocator loop, run over a strictly ascending list whose elements
are all at least the starting index, returns a value at least the start
that is not in the list. -/
theorem get_next_id_go_spec :
    ∀ (l : List Nat) (idx : Nat), l.Sorted (· < ·) → (∀ y ∈ l, idx ≤ y) →
      idx ≤ get_next_id_go idx l ∧ get_next_id_go idx l ∉ l := by
  intro l
  induction l with
  | nil =>
    intro idx _ _
    exact ⟨Nat.le_refl _, by simp [get_next_id_go]⟩
  | cons k rest ih =>
    intro idx hs hge
    have hk : idx ≤ k := hge k (List.mem_cons_self k rest)
    have hrest : ∀ y ∈ rest, k < y := fun y hy => (List.sorted_cons.mp hs).1 y hy
    rw [get_next_id_go]
    by_cases hne : idx ≠ k
    · rw [if_pos hne]
      refine ⟨Nat.le_refl _, ?_⟩
      intro hmem
      rcases List.mem_cons.mp hmem with h | h
      · exact hne h
      · exact absurd (hrest idx h) (by omega)
    · rw [if_neg hne]
      push_neg at hne
      subst hne
      obtain ⟨hle, hnm⟩ := ih (idx + 1) (List.sorted_cons.mp hs).2
        (fun y hy => hrest y hy)
      refine ⟨by omega, ?_⟩
      intro hmem
      rcases List.mem_cons.mp hmem with h | h
      · omega
      · exact hnm h

/-- The id returned by the allocator is not currently in use. -/
theorem get_next_id_fresh (st : Finset Nat) : get_next_id st ∉ st := by
  have h := get_next_id_go_spec (st.sort (· ≤ ·)) 0 (Finset.sort_sorted_lt st)
    (fun y _ => Nat.zero_le y)
  rw [get_next_id]
  intro hmem
  exact h.2 ((Finset.mem_sort (· ≤ ·)).mpr hmem)

/-- Claim C3: `split_at n` yields a head of length `min n (len g)` and a
tail holding the rest, with `collect_all head ++ collect_all tail` equal
to `collect_all g` element-wise including the paired delays; the head
keeps the original id, the tail receives a freshly allocated id (recorded
as now in use); and `chain a b` concatenates the collected streams, keeps
`a`'s id and releases `b`'s id back to the allocator. -/
theorem c3_split_chain_algebra {α : Type} (g : Gen α) (n : Nat) (st : Finset Nat)
    (a b : Gen α) (st2 : Finset Nat) :
    ((split_at g n st).1.seq.length = min n g.seq.length) ∧
    ((split_at g n st).1.seq.length + (split_at g n st).2.1.seq.length = g.seq.length) ∧
    (gen_collect_all (split_at g n st).1 ++ gen_collect_all (split_at g n st).2.1
      = gen_collect_all g) ∧
    ((split_at g n st).1.id = g.id) ∧
    ((split_at g n st).2.1.id = get_next_id st ∧ get_next_id st ∉ st) ∧
    ((split_at g n st).2.2 = insert (get_next_id st) st) ∧
    (gen_collect (chain a b st2).1 = gen_collect a ++ gen_collect b) ∧
    (gen_collect_all (chain a b st2).1 = gen_collect_all a ++ gen_collect_all b) ∧
    ((chain a b st2).1.id = a.id) ∧
    ((chain a b st2).2 = st2.erase b.id) := by
  refine ⟨List.length_take n g.seq, ?_, ?_, rfl, ⟨rfl, get_next_id_fresh st⟩, rfl,
    ?_, rfl, rfl, rfl⟩
  · simp only [split_at, List.length_take, List.length_drop]
    omega
  · simp [split_at, gen_collect_all]
  · simp [chain, gen_collect]


/-! Part: claims C5 and C9, transaction execution and the Ok-only client -/

/-- Since the cluster interface is infallible, `handle_op_inner` succeeds
on every operation. -/
theorem handle_op_inner_total {σ : Type} (get : σ → Nat → Option Nat)
    (put : σ → Nat → Nat → σ) :
    ∀ op cl, ∃ r cl', handle_op_inner get put op cl = .ok (r, cl') := by
  have hlist : ∀ (l : List Op),
      (∀ o ∈ l, ∀ cl, ∃ r cl', handle_op_inner get put o cl = .ok (r, cl')) →
      ∀ cl, ∃ rs cl', handle_children get put l cl = .ok (rs, cl') := by
    intro l ih
    induction l with
    | nil => intro cl; exact ⟨[], cl, rfl⟩
    | cons op rest ihr =>
      intro cl
      obtain ⟨r, cl1, h1⟩ := ih op (List.mem_cons_self op rest) cl
      obtain ⟨rs, cl2, h2⟩ :=
        ihr (fun o ho => ih o (List.mem_cons_of_mem op ho)) cl1
      exact ⟨r :: rs, cl2, by simp only [handle_children, h1, h2]⟩
  refine op_induction
    (fun op => ∀ cl, ∃ r cl', handle_op_inner get put op cl = .ok (r, cl'))
    ?_ ?_ ?_
  · intro k v cl; exact ⟨_, _, rfl⟩
  · intro k v cl; exact ⟨_, _, rfl⟩
  · intro l ih cl
    obtain ⟨rs, cl', h⟩ := hlist l ih cl
    exact ⟨.txn rs, cl', by rw [handle_op_inner, h]⟩

/-- Executing a child list succeeds, with the children run in declared
order and the results collected in the same order. -/
theorem handle_children_seq {σ : Type} (get : σ → Nat → Option Nat)
    (put : σ → Nat → Nat → σ) :
    ∀ (l : List Op) (cl : σ), ∃ rs cl',
      handle_children get put l cl = .ok (rs, cl') ∧
      SeqExec get put cl l rs cl' ∧ rs.length = l.length := by
  intro l
  induction l with
  | nil => intro cl; exact ⟨[], cl, rfl, .nil cl, rfl⟩
  | cons op rest ih =>
    intro cl
    obtain ⟨r, cl1, h1⟩ := handle_op_inner_total get put op cl
    obtain ⟨rs, cl2, h2, hseq, hlen⟩ := ih cl1
    exact ⟨r :: rs, cl2, by simp only [handle_children, h1, h2],
      .cons h1 hseq, by simp [hlen]⟩

/-- Claim C5: executing `Txn children` executes the children in their
declared order (state threaded left to right), every child succeeds, and
the result is `Ok (Txn rs)` with the per-child result ops in the same
order; in particular the error-abort branch of the `collect::<Result<_,_>>`
never fires for this cluster interface. -/
theorem c5_txn_executes_children_in_order {σ : Type} (get : σ → Nat → Option Nat)
    (put : σ → Nat → Nat → σ) (children : List Op) (cl : σ) :
    ∃ rs cl', SeqExec get put cl children rs cl' ∧ rs.length = children.length ∧
      handle_op_inner get put (.txn children) cl = .ok (.txn rs, cl') ∧
      ∀ e, handle_op_inner get put (.txn children) cl ≠ .error e := by
  obtain ⟨rs, cl', hrun, hseq, hlen⟩ := handle_children_seq get put children cl
  refine ⟨rs, cl', hseq, hlen, ?_, ?_⟩
  · rw [handle_op_inner, hrun]
  · intro e
    rw [handle_op_inner, hrun]
    exact fun h => by cases h

/-- Claim C9: because the cluster interface is infallible, `handle_op`
always takes the `Ok` path: it appends exactly the `Invoke` entry and an
`Ok` closing entry (both with `error = none`), and never produces a
`Fail` or `Info` entry; the `Err` branch is unreachable. -/
theorem c9_handle_op_always_ok {σ : Type} (get : σ → Nat → Option Nat)
    (put : σ → Nat → Nat → σ) (cl : σ)
    (hist : List (SerializableHistory String)) (id : Nat) (op : Op)
    (t1 t2 : Nat) :
    ∃ rop cl',
      handle_op get put cl hist id op t1 t2 =
        (cl', some (hist ++
          [{ index := hist.length, type_ := .invoke, f := op_fn_type op,
             value := op, time := t1, process := id, error := none },
           { index := hist.length + 1, type_ := .ok, f := op_fn_type rop,
             value := rop, time := t2, process := id, error := none }])) := by
  obtain ⟨rop, cl', h⟩ := handle_op_inner_total get put op cl
  refine ⟨rop, cl', ?_⟩
  rw [handle_op, h]
  simp [push_invoke, push_result]


/-! Part: claim C2, round-robin with quotas -/

/-- Claim C2: a group of two children yielding `[1..5]` and `[6..10]`
with quotas `(2, 3)` under round-robin selection emits exactly
`1, 2, 6, 7, 8, 3, 4, 9, 10, 5`; and in general one `next` call stays on
the selected child while its counter is not over (decrementing it), and
when the counter is over it resets the counter and advances the selection
by the strategy before continuing. -/
theorem c2_roundrobin_with_quotas :
    groupCollect 50 (⟨[([1, 2, 3, 4, 5], Counter.new 2), ([6, 7, 8, 9, 10], Counter.new 3)],
        .roundRobin 0, 0⟩ : GGroup Nat) = [1, 2, 6, 7, 8, 3, 4, 9, 10, 5] ∧
    (∀ (α : Type) (g : GGroup α) (fuel : Nat) (x : α) (rest : List α) (c : Counter),
      g.gens.getD g.selected ([], Counter.new 1) = (x :: rest, c) →
      c.over = false →
      groupNext (fuel + 1) g
        = some (x, { g with gens := g.gens.set g.selected (rest, c.count) })) ∧
    (∀ (α : Type) (g : GGroup α) (fuel : Nat) (s : List α) (c : Counter),
      g.gens.isEmpty = false →
      g.gens.getD g.selected ([], Counter.new 1) = (s, c) →
      c.over = true →
      groupNext (fuel + 1) g
        = groupNext fuel
            (select_current { g with gens := g.gens.set g.selected (s, c.reset) })) := by
  refine ⟨by decide, ?_, ?_⟩
  · intro α g fuel x rest c hget hover
    have hne : g.gens.isEmpty = false := by
      rcases hg : g.gens with _ | ⟨hd, tl⟩
      · rw [hg] at hget
        simp [List.getD] at hget
      · rfl
    rw [groupNext, if_neg (by simp [hne]), hget]
    rw [if_neg (by simp [hover])]
  · intro α g fuel s c hne hget hover
    rw [groupNext, if_neg (by simp [hne]), hget, if_pos hover]

/-- Witness for C2's general clauses at a concrete group. -/
theorem c2_roundrobin_with_quotas_witness :
    groupNext 6 (⟨[([7], Counter.new 1)], .chain, 0⟩ : GGroup Nat)
      = some (7, ⟨[([], Counter.mk 0 1)], .chain, 0⟩) :=
  c2_roundrobin_with_quotas.2.1 Nat ⟨[([7], Counter.new 1)], .chain, 0⟩ 5 7 []
    (Counter.new 1) rfl rfl


/-! Part: claim C1, the majorities-ring partition -/

/-- For even cluster sizes the evenly-spaced selection of
`partition_majorities_ring` reduces to the multiples of two. -/
theorem sel_even (m : Nat) (hm : 2 ≤ m) :
    select_numbers_from_range (2 * m - 1) (majority (2 * m) - 1)
      = (List.range m).map (fun j => j * 2) := by
  have h1 : majority (2 * m) - 1 = m := by
    simp only [majority]
    omega
  have h2 : (2 * m - 1 + m - 1) / m = 2 :=
    Nat.div_eq_of_lt_le (by omega) (by omega)
  rw [select_numbers_from_range, h1, h2]

/-- Membership in the `expected` set of server `i`, for even cluster
sizes: exactly the servers above `i` at odd distance from it. -/
theorem mem_expected (m : Nat) (hm : 2 ≤ m) (hN : 2 * m ≤ 2 ^ 63) (i x : Nat)
    (_hi : i < 2 * m) (hx : x < 2 * m) (hix : i < x) :
    x ∈ expected_set (2 * m) i ↔ (x - i) % 2 = 1 := by
  rw [expected_set, List.mem_toFinset, List.mem_filter, sel_even m hm, List.map_map]
  simp only [List.mem_map, List.mem_range, Function.comp, decide_eq_true_eq]
  constructor
  · rintro ⟨⟨j, hj, hoar⟩, hxi⟩
    rw [overflowing_add_range, Nat.sub_zero, Nat.sub_zero, Nat.add_zero,
      Nat.mod_eq_of_lt (show j * 2 + (i + 1) < 2 ^ 64 by omega)] at hoar
    by_cases hc : j * 2 + (i + 1) < 2 * m
    · rw [Nat.mod_eq_of_lt hc] at hoar
      omega
    · have h2 : (j * 2 + (i + 1)) % (2 * m) = j * 2 + (i + 1) - 2 * m := by
        rw [Nat.mod_eq_sub_mod (by omega), Nat.mod_eq_of_lt (by omega)]
      rw [h2] at hoar
      omega
  · intro hpar
    obtain ⟨j, hj⟩ : ∃ j, x - i = 2 * j + 1 := ⟨(x - i) / 2, by omega⟩
    refine ⟨⟨j, by omega, ?_⟩, by omega⟩
    rw [overflowing_add_range, Nat.sub_zero, Nat.sub_zero, Nat.add_zero,
      Nat.mod_eq_of_lt (show j * 2 + (i + 1) < 2 ^ 64 by omega),
      Nat.mod_eq_of_lt (show j * 2 + (i + 1) < 2 * m by omega)]
    omega

/-- Unfolding of membership in the ring record. -/
theorem mem_ring (N a b : Nat) :
    (a, b) ∈ partition_majorities_ring N ↔
      ∃ i x, i < N ∧ x < N ∧ x ∉ expected_set N i ∧ i ≤ x ∧
        ((a, b) = (i, x) ∨ (a, b) = (x, i)) := by
  rw [partition_majorities_ring]
  simp only [Finset.mem_biUnion, Finset.mem_filter, Finset.mem_sdiff,
    Finset.mem_range, Finset.mem_insert, Finset.mem_singleton]
  constructor
  · rintro ⟨i, hi, x, ⟨⟨hxN, hxe⟩, hix⟩, hab⟩
    exact ⟨i, x, hi, hxN, hxe, hix, hab⟩
  · rintro ⟨i, x, hi, hxN, hxe, hix, hab⟩
    exact ⟨i, hi, x, ⟨⟨hxN, hxe⟩, hix⟩, hab⟩

/-- For `i < x`, both directions of the link `{i, x}` are recorded as
clogged exactly when `x` is outside the expected set of `i`. -/
theorem pair_mem_ring {N i x : Nat} (hx : x < N) (hix : i < x) :
    ((i, x) ∈ partition_majorities_ring N ↔ x ∉ expected_set N i) ∧
    ((x, i) ∈ partition_majorities_ring N ↔ x ∉ expected_set N i) := by
  constructor <;> rw [mem_ring]
  · constructor
    · rintro ⟨i', x', _, _, hxe, hix', hab | hab⟩ <;>
        (rw [Prod.mk.injEq] at hab; obtain ⟨rfl, rfl⟩ := hab)
      · exact hxe
      · omega
    · intro h
      exact ⟨i, x, by omega, hx, h, by omega, Or.inl rfl⟩
  · constructor
    · rintro ⟨i', x', _, _, hxe, hix', hab | hab⟩ <;>
        (rw [Prod.mk.injEq] at hab; obtain ⟨rfl, rfl⟩ := hab)
      · omega
      · exact hxe
    · intro h
      exact ⟨i, x, by omega, hx, h, by omega, Or.inr rfl⟩

/-- For even cluster sizes, a link between distinct servers survives the
ring record exactly when the two endpoints have opposite parity. -/
theorem unclogged_iff (m : Nat) (hm : 2 ≤ m) (hN : 2 * m ≤ 2 ^ 63) (a b : Nat)
    (ha : a < 2 * m) (hb : b < 2 * m) (hab : a ≠ b) :
    ((a, b) ∉ partition_majorities_ring (2 * m)) ↔ (a + b) % 2 = 1 := by
  rcases Nat.lt_or_ge a b with hlt | hge
  · rw [(pair_mem_ring hb hlt).1, not_not,
      mem_expected m hm hN a b ha hb hlt]
    omega
  · have hlt : b < a := by omega
    rw [(pair_mem_ring ha hlt).2, not_not,
      mem_expected m hm hN b a hb ha hlt]
    omega

/-- The direct neighbors left to server `i` by the ring record, for even
cluster sizes, are the servers of opposite parity. -/
theorem ring_neighbors_eq (m : Nat) (hm : 2 ≤ m) (hN : 2 * m ≤ 2 ^ 63)
    (i : Nat) (hi : i < 2 * m) :
    ring_neighbors (2 * m) i
      = (Finset.range (2 * m)).filter (fun j => (i + j) % 2 = 1) := by
  ext j
  rw [ring_neighbors, Finset.mem_filter, Finset.mem_filter, Finset.mem_range]
  constructor
  · rintro ⟨hj, hne, hnm⟩
    exact ⟨hj, (unclogged_iff m hm hN i j hi hj (fun h => hne h.symm)).mp hnm⟩
  · rintro ⟨hj, hpar⟩
    have hne : j ≠ i := by
      intro h
      subst h
      omega
    exact ⟨hj, hne,
      (unclogged_iff m hm hN i j hi hj (fun h => hne h.symm)).mpr hpar⟩

/-- Exactly half of `0..2m` has any fixed parity. -/
theorem card_filter_parity (a : Nat) :
    ∀ m, ((Finset.range (2 * m)).filter (fun j => (a + j) % 2 = 1)).card = m := by
  intro m
  induction m with
  | zero => simp
  | succ m ih =>
    rw [show 2 * (m + 1) = 2 * m + 1 + 1 by ring, Finset.range_succ,
      Finset.filter_insert, Finset.range_succ, Finset.filter_insert]
    rcases Nat.mod_two_eq_zero_or_one a with hpar | hpar
    · rw [if_pos (by omega), if_neg (by omega),
        Finset.card_insert_of_not_mem
          (by simp only [Finset.mem_filter, Finset.mem_range]; omega), ih]
    · rw [if_neg (by omega), if_pos (by omega),
        Finset.card_insert_of_not_mem
          (by simp only [Finset.mem_filter, Finset.mem_range]; omega), ih]

/-- Claim C1 (amended): for every even cluster size `N` (within the
`usize` range), applying the record of `partition_majorities_ring` leaves
every server `i` able to reach, via direct un-clogged links, exactly the
`N / 2` servers at odd distance from `i` — the `floor(N/2)` evenly spaced
indices `i+1, i+3, …` modulo `N` — so each server reaches exactly
`majority − 1 = floor(N/2)` others, not `ceil(N/2) − 1`; for odd sizes
the reachable counts are not even uniform across servers. -/
theorem c1_majorities_ring_reach (N : Nat) (hN : N ≤ 2 ^ 63) (hEven : N % 2 = 0)
    (i : Nat) (hi : i < N) :
    ring_neighbors N i = (Finset.range N).filter (fun j => (i + j) % 2 = 1) ∧
    (ring_neighbors N i).card = N / 2 := by
  obtain ⟨m, rfl⟩ : ∃ m, N = 2 * m := ⟨N / 2, by omega⟩
  rcases Nat.lt_or_ge m 2 with hm | hm
  · have hm01 : m = 0 ∨ m = 1 := by omega
    rcases hm01 with rfl | rfl
    · omega
    · have hi01 : i = 0 ∨ i = 1 := by omega
      rcases hi01 with rfl | rfl
      · exact ⟨by decide, by decide⟩
      · exact ⟨by decide, by decide⟩
  · have h1 := ring_neighbors_eq m hm hN i hi
    refine ⟨h1, ?_⟩
    rw [h1, card_filter_parity i m]
    omega

/-- Counterexample to C1 as stated: at `N = 4` the record leaves server 0
with `2` reachable others while `ceil(4/2) − 1 = 1`; and at `N = 5`
server 1 reaches `3` others while `ceil(5/2) − 1 = 2`, so the claimed
count is wrong for even sizes and not even uniform for odd ones. -/
theorem c1_counterexample :
    (ring_neighbors 4 0).card = 2 ∧ (4 + 1) / 2 - 1 = 1 ∧
    (ring_neighbors 5 1).card = 3 ∧ (5 + 1) / 2 - 1 = 2 := by
  refine ⟨by decide, by decide, by decide, by decide⟩

/-- Witness for C1 (amended) at `N = 6`, `i = 1`. -/
theorem c1_majorities_ring_reach_witness :
    ring_neighbors 6 1 = (Finset.range 6).filter (fun j => (1 + j) % 2 = 1) ∧
    (ring_neighbors 6 1).card = 6 / 2 :=
  c1_majorities_ring_reach 6 (by norm_num) (by norm_num) 1 (by norm_num)

/-- Sanity check: the embedded ring record reproduces the connection sets
asserted by the source's `test_partition_majorities_ring` for cluster
sizes 4 and 6. -/
theorem ring_record_matches_source_tests :
    ring_neighbors 4 0 = {1, 3} ∧ ring_neighbors 4 1 = {0, 2} ∧
    ring_neighbors 4 2 = {1, 3} ∧ ring_neighbors 4 3 = {0, 2} ∧
    ring_neighbors 6 0 = {1, 3, 5} ∧ ring_neighbors 6 1 = {0, 2, 4} ∧
    ring_neighbors 6 2 = {1, 3, 5} ∧ ring_neighbors 6 3 = {0, 2, 4} ∧
    ring_neighbors 6 4 = {1, 3, 5} ∧ ring_neighbors 6 5 = {0, 2, 4} := by
  refine ⟨by decide, by decide, by decide, by decide, by decide, by decide,
    by decide, by decide, by decide, by decide⟩


/-! Part: concrete witnesses and source-test sanity checks -/

/-- Witness for C3 at a concrete generator and id set. -/
theorem c3_split_chain_algebra_witness :
    (split_at (⟨0, [(1, .none), (2, .none)]⟩ : Gen Nat) 1 {0}).1.seq.length
        = min 1 ([(1, DelayStrategy.none), (2, DelayStrategy.none)] : List (Nat × DelayStrategy)).length ∧
    (split_at (⟨0, [(1, .none), (2, .none)]⟩ : Gen Nat) 1 {0}).1.seq.length
        + (split_at (⟨0, [(1, .none), (2, .none)]⟩ : Gen Nat) 1 {0}).2.1.seq.length
        = ([(1, DelayStrategy.none), (2, DelayStrategy.none)] : List (Nat × DelayStrategy)).length :=
  ⟨(c3_split_chain_algebra (⟨0, [(1, .none), (2, .none)]⟩ : Gen Nat) 1 {0}
      ⟨0, []⟩ ⟨1, []⟩ ∅).1,
   (c3_split_chain_algebra (⟨0, [(1, .none), (2, .none)]⟩ : Gen Nat) 1 {0}
      ⟨0, []⟩ ⟨1, []⟩ ∅).2.1⟩

/-- Witness for C5 at a concrete client model and child list. -/
theorem c5_txn_executes_children_in_order_witness :
    ∃ rs cl', SeqExec (fun s _ => some s) (fun _ _ v => v) 0
        [Op.read 0 none, Op.write 1 4] rs cl' ∧
      rs.length = ([Op.read 0 none, Op.write 1 4] : List Op).length ∧
      handle_op_inner (fun s _ => some s) (fun _ _ v => v)
          (.txn [Op.read 0 none, Op.write 1 4]) 0 = .ok (.txn rs, cl') ∧
      ∀ e, handle_op_inner (fun s _ => some s) (fun _ _ v => v)
          (.txn [Op.read 0 none, Op.write 1 4]) 0 ≠ .error e :=
  @c5_txn_executes_children_in_order Nat (fun s _ => some s) (fun _ _ v => v)
    [Op.read 0 none, Op.write 1 4] 0

/-- Witness for C9 at a concrete client model, history and op. -/
theorem c9_handle_op_always_ok_witness :
    ∃ rop cl',
      handle_op (fun s _ => some s) (fun _ _ v => v) 0 [] 7 (.read 1 none) 3 5 =
        (cl', some
          [({ index := 0, type_ := .invoke, f := op_fn_type (Op.read 1 none),
              value := .read 1 none, time := 3, process := 7, error := none } :
              SerializableHistory String),
           { index := 1, type_ := .ok, f := op_fn_type rop,
             value := rop, time := 5, process := 7, error := none }]) :=
  @c9_handle_op_always_ok Nat (fun s _ => some s) (fun _ _ v => v) 0 [] 7
    (.read 1 none) 3 5

/-- Sanity check: the embedded generator group reproduces the source's
`test_generator_group_strategy` round-robin and chain orders (shifted to
start at 1) and `test_generator_group_get_next_with_id`. -/
theorem group_collect_matches_source_tests :
    groupCollect 50 (⟨[([1, 2, 3, 4, 5], Counter.new 1), ([6, 7, 8, 9, 10], Counter.new 1)],
        .roundRobin 0, 0⟩ : GGroup Nat) = [1, 6, 2, 7, 3, 8, 4, 9, 5, 10] ∧
    groupCollect 50 (⟨[([1, 2, 3, 4, 5], Counter.new 1), ([6, 7, 8, 9, 10], Counter.new 1)],
        .chain, 0⟩ : GGroup Nat) = [1, 2, 3, 4, 5, 6, 7, 8, 9, 10] := by
  refine ⟨by decide, by decide⟩

/-- Sanity check: round-robin selection from a stored `usize::MAX` walks
`0, 1, 2, 0` over the range `0..3`, as in the source's
`generator_group_choose_test`. -/
theorem choose_matches_source_test :
    ((GGStrategy.roundRobin (2 ^ 64 - 1)).choose 0 3).2 = 0 ∧
    ((GGStrategy.roundRobin 0).choose 0 3).2 = 1 ∧
    ((GGStrategy.roundRobin 1).choose 0 3).2 = 2 ∧
    ((GGStrategy.roundRobin 2).choose 0 3).2 = 0 ∧
    (GGStrategy.chain.choose 0 3).2 = 0 := by
  refine ⟨by decide, by decide, by decide, by decide, by decide⟩

/-- Sanity check: the embedded `partition_halves` reproduces the clogged
links of the source's `test_partition_halves` for a cluster of five. -/
theorem partition_halves_matches_source_test :
    (0, 3) ∈ (partition_halves {0, 1, 2} 5).getD ∅ ∧
    (3, 0) ∈ (partition_halves {0, 1, 2} 5).getD ∅ ∧
    (0, 1) ∉ (partition_halves {0, 1, 2} 5).getD ∅ ∧
    (3, 4) ∉ (partition_halves {0, 1, 2} 5).getD ∅ := by
  refine ⟨by decide, by decide, by decide, by decide⟩

/-- Sanity check: the embedded serialization reproduces the source's
`test_op_serde` round trips. -/
theorem op_serde_matches_source_test :
    parse_op (op_to_json (.write 6 1)) = .ok (.write 6 1) ∧
    parse_op (op_to_json (.read 8 none)) = .ok (.read 8 none) ∧
    parse_op (op_to_json (.txn [.write 6 1, .read 8 none]))
      = .ok (.txn [.write 6 1, .read 8 none]) := by
  refine ⟨by decide, by decide, by decide⟩

end JepsenRs
